import Mathlib

/-!
Verification of the pod-acquisition engine of `kubectl-pods_on`.

The definitions below are a shallow embedding of the Go source:
`pod_query_strategy.go` (strategy selection), the table-based
`find_pods.go` (`findPodsByQueryingNodesInParallel`, `parsePods`,
`queryPods`), `main.go` (`filterDaemonSetPods`, `cmpPod`, `cmpPodRow`,
post-processing), and `cli.go` (`parsePosArgs`).

Modelling conventions:
* Go slices that the code distinguishes from `nil` are modelled as
  `Option (List _)` (`none` is Go's nil slice).
* Go `strings.Compare` is `strCompare` and the Go builtin `max` on
  strings is `goMaxString`; both are defined through the lexicographic
  linear order on `String`.
* `float64` arithmetic in `chooseStrategy` is modelled with exact
  rationals; the comparison `float64(m)/float64(t) < 0.25` agrees with
  the rational comparison for every count below `2^53`, where the
  integer-to-float conversions and the division are exact enough that
  no rounding can cross the exactly representable threshold `0.25`.
* Network I/O is modelled by passing the sequence of server replies
  (for the paginated scan) respectively the per-worker outcomes in
  completion order (for the scatter-gather strategy) as explicit
  arguments.
* The external deserializer `scheme.Codecs.UniversalDeserializer` and
  the selector parser `labels.Parse` are abstracted as function
  arguments.
-/

namespace PodsOn

/-! ### Data model (k8s API objects, restricted to the fields the code reads) -/

/-- `metav1.OwnerReference`: controller kind, name and uid. -/
structure OwnerReference where
  kind : String
  name : String
  uid : String
deriving DecidableEq, Repr

/-- The part of `metav1.ObjectMeta` the code reads: name, namespace and
owner references. -/
structure ObjectMeta where
  name : String
  «namespace» : String
  ownerReferences : List OwnerReference
deriving DecidableEq, Repr

/-- The part of `corev1.PodSpec` the code reads: the node the pod is
scheduled on. -/
structure PodSpec where
  nodeName : String
deriving DecidableEq, Repr

/-- `corev1.Pod` restricted to the fields the code reads.  Go promotes
the `ObjectMeta` fields, so `pod.Name` is `metadata.name` here. -/
structure Pod where
  metadata : ObjectMeta
  spec : PodSpec
deriving DecidableEq, Repr

/-- The dynamic value carried by `runtime.Object` in a table row: either
the expected `*corev1.Pod`, or a value of some other registered type
(identified by its type name, which the code prints in errors). -/
inductive RuntimeObject where
  | pod (p : Pod)
  | other (typeName : String)
deriving DecidableEq, Repr

/-- `runtime.RawExtension`: a decoded object (Go `nil` is `none`) plus
the raw encoded payload bytes. -/
structure RawExtension where
  Object : Option RuntimeObject
  Raw : List Nat
deriving DecidableEq, Repr

/-- `metav1.TableRow` restricted to the field the code reads. -/
structure TableRow where
  Object : RawExtension
deriving DecidableEq, Repr

/-- `metav1.Table` restricted to the fields the code reads.  `Rows` is
`Option` so that a Go `nil` row slice (`none`) is distinguished from an
allocated empty one (`some []`): `findPodsByQueryingNodesInParallel`
branches on `out.Rows == nil`. -/
structure Table where
  ResourceVersion : String
  Continue : String
  Rows : Option (List TableRow)
deriving DecidableEq, Repr

/-- The Go zero value `metav1.Table{}`. -/
def Table.empty : Table := { ResourceVersion := "", Continue := "", Rows := none }

/-- Go's `append(a, b...)` at the `nil`/non-`nil` level: appending zero
elements returns the receiver unchanged (so a `nil` slice stays `nil`),
appending at least one element always yields a non-`nil` slice. -/
def goAppend (a b : Option (List α)) : Option (List α) :=
  match b with
  | none => a
  | some [] => a
  | some ys => some (a.getD [] ++ ys)

/-- Lexicographic comparison of character lists (an executable spelling
of the order underlying `String`'s `<`). -/
def charListCompare : List Char → List Char → Ordering
  | [], [] => .eq
  | [], _ :: _ => .lt
  | _ :: _, [] => .gt
  | a :: as, b :: bs =>
    if a < b then .lt else if b < a then .gt else charListCompare as bs

/-- Go's `strings.Compare`: the sign of the lexicographic comparison. -/
def strCompare (a b : String) : Ordering :=
  charListCompare a.data b.data

/-- Go's builtin `max` on strings: the lexicographically larger one. -/
def goMaxString (a b : String) : String :=
  if strCompare a b = .lt then b else a

/-! ### `pod_query_strategy.go` -/

/-- `podQueryStrategy` is a string type in the source. -/
def podQueryStrategy := String
deriving DecidableEq, Repr

/-- Constant `queryPodPerNodeInParallel` (scatter-gather). -/
def queryPodPerNodeInParallel : podQueryStrategy := "by-node"

/-- Constant `queryAllPods` (global scan). -/
def queryAllPods : podQueryStrategy := "all-pods"

/-- `chooseStrategy` from `pod_query_strategy.go`.  The `float64`
division against the source's threshold constant (0.25) is modelled
with exact rationals (see the file header). -/
def chooseStrategy (heuristicTotalNodes matchedNodes : ℕ) : podQueryStrategy :=
  if heuristicTotalNodes = 0 then
    -- we didn't query nodes by selectors, so the total is unknown
    queryPodPerNodeInParallel
  else
    -- the source binds `ratio := matchedNodes / totalNodes` and compares
    -- it against its threshold constant `magicRatio = 0.25`
    if (matchedNodes : ℚ) / (heuristicTotalNodes : ℚ) < (0.25 : ℚ) then
      queryPodPerNodeInParallel
    else queryAllPods

/-! ### `cmpPod` / `cmpPodRow` from `main.go` -/

/-- `cmpPod`: compare two pods by node name, then namespace, then name. -/
def cmpPod (a b : Pod) : Ordering :=
  if a.spec.nodeName ≠ b.spec.nodeName then
    strCompare a.spec.nodeName b.spec.nodeName
  else if a.metadata.«namespace» ≠ b.metadata.«namespace» then
    strCompare a.metadata.«namespace» b.metadata.«namespace»
  else
    strCompare a.metadata.name b.metadata.name

/-- The Go type assertion `row.Object.Object.(*corev1.Pod)`: succeeds
exactly when the row holds a pod (Go panics otherwise). -/
def rowPod? (row : TableRow) : Option Pod :=
  match row.Object.Object with
  | some (.pod p) => some p
  | _ => none

/-- A default pod, standing in for the unreachable branch of
`cmpPodRow` (the Go code would panic there; every theorem about
sorting is applied to rows that hold pods, where the default is never
used). -/
def defaultPod : Pod :=
  { metadata := { name := "", «namespace» := "", ownerReferences := [] },
    spec := { nodeName := "" } }

/-- `cmpPodRow`: asserts both rows hold pods and compares with `cmpPod`. -/
def cmpPodRow (a b : TableRow) : Ordering :=
  cmpPod ((rowPod? a).getD defaultPod) ((rowPod? b).getD defaultPod)

/-- The non-strict row order induced by `cmpPodRow`, i.e. the relation
a comparison sort with comparator `cmpPodRow` sorts by. -/
def rowLe (a b : TableRow) : Prop := cmpPodRow a b ≠ Ordering.gt

instance : DecidableRel rowLe := fun a b =>
  inferInstanceAs (Decidable (cmpPodRow a b ≠ Ordering.gt))

/-- The sort `slices.SortFunc(resp.Rows, cmpPodRow)` in `main.go`,
modelled as an insertion sort (the comparison sort Go's runtime applies
to small inputs; any comparison sort agrees with it on rows with
pairwise distinct keys). -/
def sortRows (l : List TableRow) : List TableRow :=
  List.insertionSort rowLe l

/-! ### `findPodsByQueryingNodesInParallel` (scatter-gather merge) -/

/-- The critical section of a scatter-gather worker (source lines
133–145 of the table-based `find_pods.go`): while the accumulated
table's row slice is still `nil`, a completed response replaces the
whole accumulator; afterwards rows are appended and the resource
version advances to the response's one only when `strings.Compare`
says it is strictly greater. -/
def mergeWorkerResponse (out resp : Table) : Table :=
  match out.Rows with
  | none => resp
  | some l =>
    { out with
      Rows := goAppend (some l) resp.Rows
      ResourceVersion :=
        if strCompare resp.ResourceVersion out.ResourceVersion = .gt then
          resp.ResourceVersion
        else out.ResourceVersion }

/-- The accumulated table of a scatter-gather run, folding the worker
responses in the order the workers completed, starting from the Go
zero value `metav1.Table{}`. -/
def gatherResponses (responses : List Table) : Table :=
  responses.foldl mergeWorkerResponse Table.empty

/-- The worker body's error wrapping:
`fmt.Errorf("failed to list pods on node %q: %w", node, err)`. -/
def workerErrWrap (node msg : String) : String :=
  "failed to list pods on node \x22" ++ node ++ "\x22: " ++ msg

/-- Modelled from the spec: the error value of the worker group's
`Wait` (the `semgroup` dependency is not part of this repository's
sources).  Per the spec's failure policy, the first error encountered
— in worker completion order — is returned after the shared context is
cancelled; `none` when every worker succeeded. -/
def groupWaitFirstError : List (String × Except String Table) → Option String
  | [] => none
  | (node, .error e) :: _ => some (workerErrWrap node e)
  | (_, .ok _) :: rest => groupWaitFirstError rest

/-- One scatter-gather run: `outcomes` lists, in completion order, each
worker's node name and the result of its `queryPods` call.  The
returned pair is Go's `(out, err)`: the accumulator merged from the
successful responses, and the group error. -/
def findPodsByQueryingNodesInParallel
    (outcomes : List (String × Except String Table)) : Table × Option String :=
  (gatherResponses (outcomes.filterMap fun o => o.2.toOption),
   groupWaitFirstError outcomes)

/-! ### `parsePods` -/

/-- The errors of `parsePods`, with the row position each message
carries. -/
inductive ParsePodsError where
  | unexpectedType (i : ℕ) (typeName : String)
  | decodeFailed (i : ℕ) (msg : String)
deriving DecidableEq, Repr

/-- The row position identified by a `parsePods` error message. -/
def ParsePodsError.position : ParsePodsError → ℕ
  | .unexpectedType i _ => i
  | .decodeFailed i _ => i

/-- The body of `parsePods`'s loop from row index `i` on, parameterized
by the external deserializer `decode`: a row whose object is non-`nil`
must already be a pod (else `unexpectedType`); a row with a `nil`
object gets its raw payload decoded (failure is `decodeFailed`, and a
successful decode of *any* type is stored back into the row). -/
def parsePodsRows (decode : List Nat → Except String RuntimeObject) :
    ℕ → List TableRow → Except ParsePodsError (List TableRow)
  | _, [] => .ok []
  | i, row :: rest =>
    match row.Object.Object with
    | some (.pod _) =>
      (parsePodsRows decode (i + 1) rest).map fun rs => row :: rs
    | some (.other t) => .error (.unexpectedType i t)
    | none =>
      match decode row.Object.Raw with
      | .error e => .error (.decodeFailed i e)
      | .ok obj =>
        (parsePodsRows decode (i + 1) rest).map fun rs =>
          { row with Object := { row.Object with Object := some obj } } :: rs

/-- `parsePods`: parse the untyped pod payloads of every row.  The Go
function mutates the table in place and returns an error; here the
updated table is returned (a `nil` row slice stays `nil`). -/
def parsePods (decode : List Nat → Except String RuntimeObject) (t : Table) :
    Except ParsePodsError Table :=
  (parsePodsRows decode 0 (t.Rows.getD [])).map fun rs =>
    { t with Rows := t.Rows.map fun _ => rs }

/-- Whether a row passes `parsePods`: it already holds a pod, or its
object is `nil` and its raw payload decodes successfully. -/
def rowParseOk (decode : List Nat → Except String RuntimeObject)
    (row : TableRow) : Prop :=
  match row.Object.Object with
  | some (.pod _) => True
  | some (.other _) => False
  | none => ∃ obj, decode row.Object.Raw = .ok obj

instance (decode : List Nat → Except String RuntimeObject) :
    DecidablePred (rowParseOk decode) := fun row => by
  unfold rowParseOk
  match row.Object.Object with
  | some (.pod _) => exact inferInstanceAs (Decidable True)
  | some (.other _) => exact inferInstanceAs (Decidable False)
  | none =>
    match h : decode row.Object.Raw with
    | .error e => exact .isFalse (by simp [h])
    | .ok obj => exact .isTrue ⟨obj, rfl⟩

/-! ### `queryPods` (paginated scan) -/

/-- `podQueryOpts`. -/
structure podQueryOpts where
  fieldSelectorNodeName : String
  useWatchCache : Bool
deriving DecidableEq, Repr

/-- The request built at the top of each iteration of `queryPods`'s
page loop (source lines 187–197): the field selector is attached when a
node name is set, `resourceVersion=0` when the watch-cache hint is
enabled, and the continuation token when one is carried over. -/
structure PodQueryRequest where
  resource : String
  acceptHeader : String
  includeObject : String
  limit : String
  fieldSelector : Option String
  resourceVersionParam : Option String
  continueParam : Option String
deriving DecidableEq, Repr

/-- Build the request of one page fetch from the options and the
running continuation token. -/
def buildPodQueryRequest (opts : podQueryOpts) (continueToken : String) :
    PodQueryRequest :=
  { resource := "pods"
    acceptHeader := "application/json;as=Table;v=v1;g=meta.k8s.io,application/json"
    includeObject := "Object"
    limit := "1000"
    fieldSelector :=
      if opts.fieldSelectorNodeName ≠ "" then
        some ("spec.nodeName=" ++ opts.fieldSelectorNodeName)
      else none
    resourceVersionParam := if opts.useWatchCache then some "0" else none
    continueParam := if continueToken ≠ "" then some continueToken else none }

/-- The page accumulation step of `queryPods` (source lines 211–216):
the first page (no continuation token yet) becomes the accumulator
wholesale; every later page has its rows appended and its resource
version merged with the Go builtin `max`. -/
def scanPageMerge (continueToken : String) (tableResp resp : Table) : Table :=
  if continueToken = "" then resp
  else
    { tableResp with
      Rows := goAppend tableResp.Rows resp.Rows
      ResourceVersion := goMaxString tableResp.ResourceVersion resp.ResourceVersion }

/-- The errors of `queryPods`. -/
inductive QueryError where
  /-- `"failed to list pods from kubernetes api: %w"` — a transport or
  unmarshalling failure of one page request. -/
  | listFailed (msg : String)
  /-- `"failed to parse pods in the table response: %w"`. -/
  | parseFailed (e : ParsePodsError)
deriving DecidableEq, Repr

/-- The page loop of `queryPods`, driven by the list of server replies
(the i-th request receives `replies[i]`; an `Except.error` reply is a
failed page request).  Returns the trace of requests made and the loop
outcome; the outcome is `none` when the scripted replies run out while
the code would still be paginating (such a run is outside the model). -/
def queryPodsLoop (opts : podQueryOpts) :
    List (Except String Table) → String → Table →
      List PodQueryRequest × Option (Except String Table)
  | [], continueToken, _ =>
    ([buildPodQueryRequest opts continueToken], none)
  | reply :: rest, continueToken, tableResp =>
    let req := buildPodQueryRequest opts continueToken
    match reply with
    | .error e => ([req], some (.error e))
    | .ok resp =>
      let tableResp' := scanPageMerge continueToken tableResp resp
      if resp.Continue = "" then ([req], some (.ok tableResp'))
      else
        let next := queryPodsLoop opts rest resp.Continue tableResp'
        (req :: next.1, next.2)

/-- `queryPods`: run the page loop starting from the Go zero table and
no continuation token, then parse the raw pod payloads.  The second
component mirrors Go's `(metav1.Table, error)` return: on any failure
the empty table is returned together with the error. -/
def queryPods (opts : podQueryOpts)
    (decode : List Nat → Except String RuntimeObject)
    (replies : List (Except String Table)) :
    List PodQueryRequest × Option (Table × Option QueryError) :=
  ((queryPodsLoop opts replies "" Table.empty).1,
   match (queryPodsLoop opts replies "" Table.empty).2 with
   | none => none
   | some (.error e) => some (Table.empty, some (.listFailed e))
   | some (.ok t) =>
     match parsePods decode t with
     | .error pe => some (Table.empty, some (.parseFailed pe))
     | .ok t' => some (t', none))

/-! ### `filterDaemonSetPods` and `main`'s post-processing -/

/-- The inner loop of `filterDaemonSetPods`: scan the owner references
and stop at the first one of kind `DaemonSet`. -/
def hasDaemonSetOwner : List OwnerReference → Bool
  | [] => false
  | o :: rest => if o.kind = "DaemonSet" then true else hasDaemonSetOwner rest

/-- The row loop of `filterDaemonSetPods`; `none` models the Go panic
of the type assertion on a row that does not hold a pod. -/
def filterDaemonSetRows : List TableRow → Option (List TableRow)
  | [] => some []
  | row :: rest =>
    match rowPod? row with
    | none => none
    | some p =>
      (filterDaemonSetRows rest).map fun f =>
        if hasDaemonSetOwner p.metadata.ownerReferences then f else row :: f

/-- `filterDaemonSetPods`: keep the rows whose pod has no `DaemonSet`
owner.  The Go accumulator slice starts `nil` and stays `nil` when
nothing is kept. -/
def filterDaemonSetPods (t : Table) : Option Table :=
  (filterDaemonSetRows (t.Rows.getD [])).map fun f =>
    { t with Rows := if f.isEmpty then none else some f }

/-- The post-processing in `main` (source lines 148–154): apply the
DaemonSet filter unless `--include-daemonsets` is set, then sort the
rows with `slices.SortFunc(resp.Rows, cmpPodRow)`.  `none` models an
abnormal termination (the filter's type-assertion panic). -/
def mainPostprocess (includeDaemonSets : Bool) (resp : Table) : Option Table :=
  let filtered := if ¬ includeDaemonSets then filterDaemonSetPods resp else some resp
  filtered.map fun t => { t with Rows := t.Rows.map sortRows }

/-- `main`'s handling of the chosen strategy's result (source lines
133–146): on a non-`nil` error it exits via `klog.Fatalf` without
delivering a result (`none`); otherwise the table is post-processed
and handed to printing. -/
def mainHandleQueryResult (includeDaemonSets : Bool)
    (qr : Table × Option String) : Option Table :=
  match qr.2 with
  | some _ => none
  | none => mainPostprocess includeDaemonSets qr.1

/-! ### `parsePosArgs` from `cli.go` -/

/-- The classification heuristic of `parsePosArgs`: an argument is a
selector when it contains `=` or a space (`strings.ContainsAny(arg,
"= ")`), and an explicit node name otherwise. -/
def argIsSelector (arg : String) : Bool :=
  arg.data.any fun c => c == '=' || c == ' '

/-- The error wrapping
`fmt.Errorf("failed to parse node selector %q: %w", arg, err)`. -/
def selectorErrWrap (arg msg : String) : String :=
  "failed to parse node selector \x22" ++ arg ++ "\x22: " ++ msg

/-- The argument loop of `parsePosArgs`, parameterized by the external
`labels.Parse` (`labelsParse`), carrying the two accumulators. -/
def parsePosArgsLoop (labelsParse : String → Except String σ) :
    List String → List σ → List String →
      Except String (List σ × List String)
  | [], selectors, nodeNames => .ok (selectors, nodeNames)
  | arg :: rest, selectors, nodeNames =>
    if ¬ argIsSelector arg then
      parsePosArgsLoop labelsParse rest selectors (nodeNames ++ [arg])
    else
      match labelsParse arg with
      | .error e => .error (selectorErrWrap arg e)
      | .ok sel => parsePosArgsLoop labelsParse rest (selectors ++ [sel]) nodeNames

/-- `parsePosArgs`: reject an empty argument list, else classify each
argument.  Go returns `(nil, nil, err)` on every error path, which the
`Except.error` constructor captures. -/
def parsePosArgs (labelsParse : String → Except String σ)
    (posArgs : List String) : Except String (List σ × List String) :=
  if posArgs.isEmpty then
    .error "no positional arguments specified. specify node names or node selectors"
  else
    parsePosArgsLoop labelsParse posArgs [] []

/-! ### Derived notions used in the statements -/

/-- The sort key realized by `cmpPod`: host (node) name, then
namespace, then pod name. -/
def podKey (p : Pod) : String × String × String :=
  (p.spec.nodeName, p.metadata.«namespace», p.metadata.name)

/-- The sort key of a table row (through the pod it holds). -/
def rowKey (row : TableRow) : String × String × String :=
  podKey ((rowPod? row).getD defaultPod)

/-- The row list accumulated by a scatter-gather run (Go `nil` read as
the empty list). -/
def gatherRows (responses : List Table) : List TableRow :=
  (gatherResponses responses).Rows.getD []

/-! ### Basic facts about the string comparison helpers -/

theorem charListCompare_eq_eq :
    ∀ {as bs : List Char}, charListCompare as bs = .eq ↔ as = bs := by
  intro as
  induction as with
  | nil =>
      intro bs
      match bs with
      | [] => exact iff_of_true rfl rfl
      | b :: bs' => exact iff_of_false (by simp [charListCompare]) (by simp)
  | cons a as' ih =>
      intro bs
      match bs with
      | [] => exact iff_of_false (by simp [charListCompare]) (by simp)
      | b :: bs' =>
          unfold charListCompare
          rcases lt_trichotomy a b with h | h | h
          · rw [if_pos h]
            exact iff_of_false (by decide) (by simp [ne_of_lt h])
          · subst h
            rw [if_neg (lt_irrefl a), if_neg (lt_irrefl a), ih]
            simp
          · rw [if_neg (asymm h), if_pos h]
            exact iff_of_false (by decide) (by simp [(ne_of_gt h)])

theorem charListCompare_eq_lt :
    ∀ {as bs : List Char}, charListCompare as bs = .lt ↔ List.Lex (· < ·) as bs := by
  intro as
  induction as with
  | nil =>
      intro bs
      match bs with
      | [] => exact iff_of_false (by decide) (by intro h; cases h)
      | b :: bs' => exact iff_of_true rfl List.Lex.nil
  | cons a as' ih =>
      intro bs
      match bs with
      | [] => exact iff_of_false (by simp [charListCompare]) (by intro h; cases h)
      | b :: bs' =>
          unfold charListCompare
          rcases lt_trichotomy a b with h | h | h
          · rw [if_pos h]
            exact iff_of_true rfl (List.Lex.rel h)
          · subst h
            rw [if_neg (lt_irrefl a), if_neg (lt_irrefl a), ih]
            constructor
            · exact fun hl => List.Lex.cons hl
            · intro hl
              cases hl with
              | cons h' => exact h'
              | rel h' => exact absurd h' (lt_irrefl a)
          · rw [if_neg (asymm h), if_pos h]
            refine iff_of_false (by decide) ?_
            intro hl
            cases hl with
            | cons h' => exact absurd h (lt_irrefl a)
            | rel h' => exact absurd h' (asymm h)

theorem charListCompare_swap :
    ∀ (as bs : List Char), charListCompare as bs = (charListCompare bs as).swap := by
  intro as
  induction as with
  | nil =>
      intro bs
      match bs with
      | [] => rfl
      | b :: bs' => rfl
  | cons a as' ih =>
      intro bs
      match bs with
      | [] => rfl
      | b :: bs' =>
          unfold charListCompare
          rcases lt_trichotomy a b with h | h | h
          · rw [if_pos h, if_neg (asymm h), if_pos h]
            rfl
          · subst h
            rw [if_neg (lt_irrefl a), if_neg (lt_irrefl a), if_neg (lt_irrefl a),
              if_neg (lt_irrefl a), ih]
          · rw [if_neg (asymm h), if_pos h, if_pos h]
            rfl

theorem strCompare_eq_lt {a b : String} : strCompare a b = .lt ↔ a < b := by
  rw [String.lt_iff_toList_lt]
  exact charListCompare_eq_lt

theorem strCompare_eq_eq {a b : String} : strCompare a b = .eq ↔ a = b := by
  unfold strCompare
  rw [charListCompare_eq_eq]
  constructor
  · intro h
    cases a
    cases b
    exact congrArg String.mk h
  · intro h
    rw [h]

theorem strCompare_eq_gt {a b : String} : strCompare a b = .gt ↔ b < a := by
  unfold strCompare
  rw [charListCompare_swap]
  constructor
  · intro h
    have : charListCompare b.data a.data = .lt := by
      cases hcb : charListCompare b.data a.data <;> rw [hcb] at h <;>
        first | rfl | exact absurd h (by decide)
    exact strCompare_eq_lt.mp this
  · intro h
    rw [show charListCompare b.data a.data = .lt from strCompare_eq_lt.mpr h]
    rfl

theorem goMaxString_eq_max (a b : String) : goMaxString a b = max a b := by
  unfold goMaxString
  rcases le_or_lt b a with h | h
  · rw [max_eq_left h, if_neg (fun hc => absurd (strCompare_eq_lt.mp hc) (not_lt.mpr h))]
  · rw [max_eq_right h.le, if_pos (strCompare_eq_lt.mpr h)]

theorem strCompare_gt_iff {a b : String} : strCompare a b = .gt ↔ b < a :=
  strCompare_eq_gt

/-! ### Facts about `goAppend` and the scatter-gather merge -/

theorem goAppend_getD (a b : Option (List α)) :
    (goAppend a b).getD [] = a.getD [] ++ b.getD [] := by
  unfold goAppend
  match b with
  | none => simp
  | some [] => simp
  | some (y :: ys) => simp

theorem goAppend_some (l : List α) (b : Option (List α)) :
    goAppend (some l) b = some (l ++ b.getD []) := by
  unfold goAppend
  match b with
  | none => simp
  | some [] => simp
  | some (y :: ys) => simp

theorem mergeWorkerResponse_rows (out resp : Table) :
    (mergeWorkerResponse out resp).Rows.getD [] =
      out.Rows.getD [] ++ resp.Rows.getD [] := by
  unfold mergeWorkerResponse
  match h : out.Rows with
  | none => simp
  | some l => simp [goAppend_getD]

theorem mergeWorkerResponse_rv_of_some {out : Table} {l : List TableRow}
    (h : out.Rows = some l) (resp : Table) :
    (mergeWorkerResponse out resp).ResourceVersion =
      goMaxString out.ResourceVersion resp.ResourceVersion := by
  unfold mergeWorkerResponse
  rw [h]
  simp only
  rw [goMaxString_eq_max]
  by_cases hlt : out.ResourceVersion < resp.ResourceVersion
  · rw [if_pos (strCompare_gt_iff.mpr hlt), max_eq_right hlt.le]
  · rw [if_neg (fun hc => hlt (strCompare_gt_iff.mp hc)),
      max_eq_left (not_lt.mp hlt)]

theorem mergeWorkerResponse_some_of_some {out : Table} {l : List TableRow}
    (h : out.Rows = some l) (resp : Table) :
    ∃ l', (mergeWorkerResponse out resp).Rows = some l' := by
  unfold mergeWorkerResponse
  rw [h]
  exact ⟨_, goAppend_some l resp.Rows⟩

theorem foldl_merge_rows (rs : List Table) :
    ∀ acc : Table, (rs.foldl mergeWorkerResponse acc).Rows.getD [] =
      acc.Rows.getD [] ++ (rs.map fun r => r.Rows.getD []).flatten := by
  induction rs with
  | nil => intro acc; simp
  | cons r rest ih =>
      intro acc
      rw [List.foldl_cons, ih, mergeWorkerResponse_rows]
      simp [List.append_assoc]

theorem gatherRows_eq_flatten (responses : List Table) :
    gatherRows responses = (responses.map fun r => r.Rows.getD []).flatten := by
  unfold gatherRows gatherResponses
  rw [foldl_merge_rows]
  simp [Table.empty]

theorem foldl_merge_rv (rs : List Table) :
    ∀ (acc : Table) (l : List TableRow), acc.Rows = some l →
      (∀ r ∈ rs, r.Rows ≠ none) →
      (rs.foldl mergeWorkerResponse acc).ResourceVersion =
        (rs.map fun r => r.ResourceVersion).foldl goMaxString acc.ResourceVersion := by
  induction rs with
  | nil => intro acc l _ _; simp
  | cons r rest ih =>
      intro acc l hacc hall
      obtain ⟨l', hl'⟩ := mergeWorkerResponse_some_of_some hacc r
      rw [List.foldl_cons, ih _ _ hl' (fun q hq => hall q (List.mem_cons_of_mem _ hq)),
        mergeWorkerResponse_rv_of_some hacc]
      simp

theorem perm_flatten {l₁ l₂ : List (List α)} (h : l₁.Perm l₂) :
    l₁.flatten.Perm l₂.flatten := by
  induction h with
  | nil => exact List.Perm.refl _
  | cons x h ih => simpa using ih.append_left x
  | swap x y l =>
      simp only [List.flatten_cons, ← List.append_assoc]
      exact (List.perm_append_comm).append_right _
  | trans h1 h2 ih1 ih2 => exact ih1.trans ih2

theorem foldl_goMaxString_le (ts : List String) :
    ∀ v : String, v ≤ ts.foldl goMaxString v ∧
      ∀ t ∈ ts, t ≤ ts.foldl goMaxString v := by
  induction ts with
  | nil => intro v; exact ⟨le_refl v, by simp⟩
  | cons t rest ih =>
      intro v
      obtain ⟨h1, h2⟩ := ih (goMaxString v t)
      have hv : v ≤ goMaxString v t := by rw [goMaxString_eq_max]; exact le_max_left _ _
      have ht : t ≤ goMaxString v t := by rw [goMaxString_eq_max]; exact le_max_right _ _
      refine ⟨hv.trans h1, ?_⟩
      intro x hx
      rcases List.mem_cons.mp hx with hx | hx
      · subst hx; exact ht.trans h1
      · exact h2 x hx

theorem foldl_goMaxString_mem (ts : List String) :
    ∀ v : String, ts.foldl goMaxString v = v ∨ ts.foldl goMaxString v ∈ ts := by
  induction ts with
  | nil => intro v; exact .inl rfl
  | cons t rest ih =>
      intro v
      rcases ih (goMaxString v t) with h | h
      · rw [List.foldl_cons, h]
        unfold goMaxString
        by_cases hlt : strCompare v t = Ordering.lt
        · rw [if_pos hlt]; exact .inr (List.mem_cons_self t rest)
        · rw [if_neg hlt]; exact .inl rfl
      · exact .inr (List.mem_cons_of_mem _ (by rw [List.foldl_cons]; exact h))

/-! ### Facts about `cmpPod`, `cmpPodRow` and the row order -/

theorem strCompare_self (a : String) : strCompare a a = .eq :=
  strCompare_eq_eq.mpr rfl

theorem ordering_eq_then (x : Ordering) : Ordering.eq.then x = x := rfl

theorem strCompare_swap (a b : String) : strCompare a b = (strCompare b a).swap := by
  rcases lt_trichotomy a b with h | h | h
  · rw [strCompare_eq_lt.mpr h, strCompare_gt_iff.mpr h]; rfl
  · subst h; rw [strCompare_self]; rfl
  · rw [strCompare_gt_iff.mpr h, strCompare_eq_lt.mpr h]; rfl

theorem cmpPod_then (a b : Pod) :
    cmpPod a b =
      (strCompare a.spec.nodeName b.spec.nodeName).then
        ((strCompare a.metadata.«namespace» b.metadata.«namespace»).then
          (strCompare a.metadata.name b.metadata.name)) := by
  unfold cmpPod
  by_cases h1 : a.spec.nodeName = b.spec.nodeName
  · rw [if_neg (fun hc => hc h1), h1, strCompare_self, ordering_eq_then]
    by_cases h2 : a.metadata.«namespace» = b.metadata.«namespace»
    · rw [if_neg (fun hc => hc h2), h2, strCompare_self, ordering_eq_then]
    · rw [if_pos h2]
      rcases lt_trichotomy a.metadata.«namespace» b.metadata.«namespace» with h | h | h
      · rw [strCompare_eq_lt.mpr h]; rfl
      · exact absurd h h2
      · rw [strCompare_gt_iff.mpr h]; rfl
  · rw [if_pos h1]
    rcases lt_trichotomy a.spec.nodeName b.spec.nodeName with h | h | h
    · rw [strCompare_eq_lt.mpr h]; rfl
    · exact absurd h h1
    · rw [strCompare_gt_iff.mpr h]; rfl

theorem cmpPod_eq_iff_key (a b : Pod) : cmpPod a b = .eq ↔ podKey a = podKey b := by
  unfold cmpPod podKey
  by_cases h1 : a.spec.nodeName = b.spec.nodeName
  · rw [if_neg (fun hc => hc h1)]
    by_cases h2 : a.metadata.«namespace» = b.metadata.«namespace»
    · rw [if_neg (fun hc => hc h2)]
      constructor
      · intro h
        rw [h1, h2, strCompare_eq_eq.mp h]
      · intro h
        simp only [Prod.mk.injEq] at h
        exact strCompare_eq_eq.mpr h.2.2
    · rw [if_pos h2]
      constructor
      · intro h
        exact absurd (strCompare_eq_eq.mp h) h2
      · intro h
        simp only [Prod.mk.injEq] at h
        exact absurd h.2.1 h2
  · rw [if_pos h1]
    constructor
    · intro h
      exact absurd (strCompare_eq_eq.mp h) h1
    · intro h
      simp only [Prod.mk.injEq] at h
      exact absurd h.1 h1

theorem cmpPod_swap (a b : Pod) : cmpPod a b = (cmpPod b a).swap := by
  rw [cmpPod_then, cmpPod_then,
    strCompare_swap a.spec.nodeName, strCompare_swap a.metadata.«namespace»,
    strCompare_swap a.metadata.name]
  rcases strCompare b.spec.nodeName a.spec.nodeName with _ | _ | _ <;>
    rcases strCompare b.metadata.«namespace» a.metadata.«namespace» with _ | _ | _ <;>
      rcases strCompare b.metadata.name a.metadata.name with _ | _ | _ <;> rfl

theorem cmpPod_ne_gt_iff (a b : Pod) :
    cmpPod a b ≠ .gt ↔
      a.spec.nodeName < b.spec.nodeName ∨
        (a.spec.nodeName = b.spec.nodeName ∧
          (a.metadata.«namespace» < b.metadata.«namespace» ∨
            (a.metadata.«namespace» = b.metadata.«namespace» ∧
              a.metadata.name ≤ b.metadata.name))) := by
  unfold cmpPod
  by_cases h1 : a.spec.nodeName = b.spec.nodeName
  · rw [if_neg (fun hc => hc h1)]
    by_cases h2 : a.metadata.«namespace» = b.metadata.«namespace»
    · rw [if_neg (fun hc => hc h2)]
      constructor
      · intro h
        refine .inr ⟨h1, .inr ⟨h2, ?_⟩⟩
        by_contra hle
        exact h (strCompare_gt_iff.mpr (not_le.mp hle))
      · rintro (h | ⟨-, (h | ⟨-, h3⟩)⟩)
        · exact absurd h1 (ne_of_lt h)
        · exact absurd h2 (ne_of_lt h)
        · intro hc
          exact absurd h3 (not_le.mpr (strCompare_gt_iff.mp hc))
    · rw [if_pos h2]
      constructor
      · intro h
        rcases lt_trichotomy a.metadata.«namespace» b.metadata.«namespace» with h3 | h3 | h3
        · exact .inr ⟨h1, .inl h3⟩
        · exact absurd h3 h2
        · exact absurd (strCompare_gt_iff.mpr h3) h
      · rintro (h | ⟨-, (h | ⟨h3, -⟩)⟩)
        · exact absurd h1 (ne_of_lt h)
        · intro hc
          exact absurd h (asymm (strCompare_gt_iff.mp hc))
        · exact absurd h3 h2
  · rw [if_pos h1]
    constructor
    · intro h
      rcases lt_trichotomy a.spec.nodeName b.spec.nodeName with h3 | h3 | h3
      · exact .inl h3
      · exact absurd h3 h1
      · exact absurd (strCompare_gt_iff.mpr h3) h
    · rintro (h | ⟨h3, -⟩)
      · intro hc
        exact absurd h (asymm (strCompare_gt_iff.mp hc))
      · exact absurd h3 h1

theorem cmpPod_le_trans {a b c : Pod}
    (hab : cmpPod a b ≠ .gt) (hbc : cmpPod b c ≠ .gt) : cmpPod a c ≠ .gt := by
  rw [cmpPod_ne_gt_iff] at hab hbc ⊢
  rcases hab with h1 | ⟨h1, hab'⟩
  · rcases hbc with h2 | ⟨h2, -⟩
    · exact .inl (h1.trans h2)
    · exact .inl (h2 ▸ h1)
  · rcases hbc with h2 | ⟨h2, hbc'⟩
    · exact .inl (h1 ▸ h2)
    · refine .inr ⟨h1.trans h2, ?_⟩
      rcases hab' with h3 | ⟨h3, hab''⟩
      · rcases hbc' with h4 | ⟨h4, -⟩
        · exact .inl (h3.trans h4)
        · exact .inl (h4 ▸ h3)
      · rcases hbc' with h4 | ⟨h4, hbc''⟩
        · exact .inl (h3 ▸ h4)
        · exact .inr ⟨h3.trans h4, hab''.trans hbc''⟩

theorem rowLe_total (a b : TableRow) : rowLe a b ∨ rowLe b a := by
  unfold rowLe cmpPodRow
  by_cases h : cmpPod ((rowPod? a).getD defaultPod) ((rowPod? b).getD defaultPod) = .gt
  · right
    rw [cmpPod_swap, h]
    decide
  · exact .inl h

theorem rowLe_trans {a b c : TableRow} (h1 : rowLe a b) (h2 : rowLe b c) : rowLe a c :=
  cmpPod_le_trans h1 h2

instance : IsTotal TableRow rowLe := ⟨rowLe_total⟩

instance : IsTrans TableRow rowLe := ⟨fun _ _ _ => rowLe_trans⟩

theorem rowKey_eq_of_le_antisymm {a b : TableRow}
    (h1 : rowLe a b) (h2 : rowLe b a) : rowKey a = rowKey b := by
  unfold rowLe cmpPodRow at h1 h2
  unfold rowKey
  rcases ho : cmpPod ((rowPod? a).getD defaultPod) ((rowPod? b).getD defaultPod)
    with _ | _ | _
  · rw [cmpPod_swap, ho] at h2
    exact absurd rfl h2
  · exact cmpPod_eq_iff_key _ _ |>.mp ho
  · exact absurd ho h1

theorem sortRows_perm (l : List TableRow) : (sortRows l).Perm l :=
  List.perm_insertionSort rowLe l

theorem sortRows_sorted (l : List TableRow) : (sortRows l).Sorted rowLe :=
  List.sorted_insertionSort rowLe l

theorem eq_of_perm_sorted_nodupKeys :
    ∀ {l₁ l₂ : List TableRow}, l₁.Perm l₂ → l₁.Sorted rowLe → l₂.Sorted rowLe →
      (l₁.map rowKey).Nodup → l₁ = l₂ := by
  intro l₁
  induction l₁ with
  | nil => intro l₂ hp _ _ _; exact (hp.symm.eq_nil).symm
  | cons a t₁ ih =>
      intro l₂ hp hs₁ hs₂ hnd
      match l₂ with
      | [] => exact absurd hp.eq_nil (by simp)
      | b :: t₂ =>
        have hnd' : rowKey a ∉ t₁.map rowKey ∧ (t₁.map rowKey).Nodup := by
          rw [List.map_cons] at hnd
          exact List.nodup_cons.mp hnd
        have hba : b ∈ a :: t₁ := hp.symm.subset (List.mem_cons_self b t₂)
        have hab : a ∈ b :: t₂ := hp.subset (List.mem_cons_self a t₁)
        have hb_eq : b = a := by
          rcases List.mem_cons.mp hba with h | hbt₁
          · exact h
          rcases List.mem_cons.mp hab with h | hat₂
          · exact h.symm
          have le_ab : rowLe a b := List.rel_of_sorted_cons hs₁ b hbt₁
          have le_ba : rowLe b a := List.rel_of_sorted_cons hs₂ a hat₂
          have hkey : rowKey a = rowKey b := rowKey_eq_of_le_antisymm le_ab le_ba
          have hmem : rowKey b ∈ t₁.map rowKey := List.mem_map_of_mem rowKey hbt₁
          rw [← hkey] at hmem
          exact absurd hmem hnd'.1
        subst hb_eq
        have ht : t₁.Perm t₂ := hp.cons_inv
        have : t₁ = t₂ := ih ht hs₁.of_cons hs₂.of_cons hnd'.2
        rw [this]

/-! ### Facts about `parsePods` -/

theorem parsePodsRows_ok_iff (decode : List Nat → Except String RuntimeObject) :
    ∀ (rows : List TableRow) (i : ℕ),
      (∃ rs, parsePodsRows decode i rows = .ok rs) ↔ ∀ row ∈ rows, rowParseOk decode row := by
  intro rows
  induction rows with
  | nil => intro i; simp [parsePodsRows]
  | cons row rest ih =>
      intro i
      unfold parsePodsRows
      match hobj : row.Object.Object with
      | some (.pod p) =>
          constructor
          · rintro ⟨rs, hrs⟩ r hr
            rcases List.mem_cons.mp hr with h | h
            · subst h; unfold rowParseOk; rw [hobj]; trivial
            · match hrec : parsePodsRows decode (i + 1) rest with
              | .ok rs' => exact ((ih (i + 1)).mp ⟨rs', hrec⟩) r h
              | .error e => rw [hrec] at hrs; exact absurd hrs (by simp [Except.map])
          · intro hall
            obtain ⟨rs', hrs'⟩ := (ih (i + 1)).mpr fun r hr =>
              hall r (List.mem_cons_of_mem _ hr)
            exact ⟨row :: rs', by rw [hrs']; rfl⟩
      | some (.other t) =>
          constructor
          · rintro ⟨rs, hrs⟩
            exact absurd hrs (by simp)
          · intro hall
            have := hall row (List.mem_cons_self row rest)
            unfold rowParseOk at this
            rw [hobj] at this
            exact absurd this (by simp)
      | none =>
          match hdec : decode row.Object.Raw with
          | .error e =>
              constructor
              · rintro ⟨rs, hrs⟩
                exact absurd hrs (by simp)
              · intro hall
                have := hall row (List.mem_cons_self row rest)
                unfold rowParseOk at this
                rw [hobj] at this
                obtain ⟨obj, hobj'⟩ := this
                rw [hdec] at hobj'
                exact absurd hobj' (by simp)
          | .ok obj =>
              constructor
              · rintro ⟨rs, hrs⟩ r hr
                rcases List.mem_cons.mp hr with h | h
                · subst h; unfold rowParseOk; rw [hobj]; exact ⟨obj, hdec⟩
                · match hrec : parsePodsRows decode (i + 1) rest with
                  | .ok rs' => exact ((ih (i + 1)).mp ⟨rs', hrec⟩) r h
                  | .error e => rw [hrec] at hrs; exact absurd hrs (by simp [Except.map])
              · intro hall
                obtain ⟨rs', hrs'⟩ := (ih (i + 1)).mpr fun r hr =>
                  hall r (List.mem_cons_of_mem _ hr)
                exact ⟨_, by rw [hrs']; rfl⟩

theorem except_map_error {ε α β : Type _} {x : Except ε α} {e : ε}
    (h : x = .error e) (f : α → β) : x.map f = .error e := by
  rw [h]; rfl

theorem parsePodsRows_cons_pod (decode : List Nat → Except String RuntimeObject)
    (i : ℕ) {row : TableRow} {p : Pod}
    (h : row.Object.Object = some (.pod p)) (rest : List TableRow) :
    parsePodsRows decode i (row :: rest) =
      (parsePodsRows decode (i + 1) rest).map fun rs => row :: rs := by
  simp only [parsePodsRows]
  rw [h]

theorem parsePodsRows_cons_decoded (decode : List Nat → Except String RuntimeObject)
    (i : ℕ) {row : TableRow} {obj : RuntimeObject}
    (h0 : row.Object.Object = none) (h : decode row.Object.Raw = .ok obj)
    (rest : List TableRow) :
    parsePodsRows decode i (row :: rest) =
      (parsePodsRows decode (i + 1) rest).map fun rs =>
        { row with Object := { row.Object with Object := some obj } } :: rs := by
  simp only [parsePodsRows]
  rw [h0, h]

theorem parsePodsRows_error_position (decode : List Nat → Except String RuntimeObject)
    {bad : TableRow} (hbad : ¬ rowParseOk decode bad) :
    ∀ (good : List TableRow) (rest2 : List TableRow) (i : ℕ),
      (∀ r ∈ good, rowParseOk decode r) →
      ∃ e, parsePodsRows decode i (good ++ bad :: rest2) = .error e ∧
        e.position = i + good.length := by
  intro good
  induction good with
  | nil =>
      intro rest2 i _
      unfold rowParseOk at hbad
      simp only [List.nil_append, List.length_nil, Nat.add_zero]
      unfold parsePodsRows
      match hobj : bad.Object.Object with
      | some (.pod p) => rw [hobj] at hbad; exact absurd trivial hbad
      | some (.other t) => exact ⟨.unexpectedType i t, rfl, rfl⟩
      | none =>
          rw [hobj] at hbad
          match hdec : decode bad.Object.Raw with
          | .ok obj => exact absurd ⟨obj, hdec⟩ hbad
          | .error m => exact ⟨.decodeFailed i m, rfl, rfl⟩
  | cons g gs ih =>
      intro rest2 i hall
      have hg := hall g (List.mem_cons_self g gs)
      obtain ⟨e, he, hpos⟩ := ih rest2 (i + 1) fun r hr =>
        hall r (List.mem_cons_of_mem _ hr)
      unfold rowParseOk at hg
      refine ⟨e, ?_, by rw [hpos]; simp [List.length_cons]; omega⟩
      rw [List.cons_append]
      match hobj : g.Object.Object with
      | some (.pod p) =>
          rw [parsePodsRows_cons_pod decode i hobj]
          exact except_map_error he _
      | some (.other t) => rw [hobj] at hg; exact absurd hg (by simp)
      | none =>
          rw [hobj] at hg
          obtain ⟨obj, hdec⟩ := hg
          rw [parsePodsRows_cons_decoded decode i hobj hdec]
          exact except_map_error he _

theorem parsePods_ok_iff (decode : List Nat → Except String RuntimeObject) (t : Table) :
    (∃ t', parsePods decode t = .ok t') ↔
      ∀ row ∈ t.Rows.getD [], rowParseOk decode row := by
  unfold parsePods
  rw [← parsePodsRows_ok_iff decode (t.Rows.getD []) 0]
  constructor
  · rintro ⟨t', ht'⟩
    match hrs : parsePodsRows decode 0 (t.Rows.getD []) with
    | .ok rs => exact ⟨rs, rfl⟩
    | .error e => rw [hrs] at ht'; exact absurd ht' (by simp [Except.map])
  · rintro ⟨rs, hrs⟩
    exact ⟨_, by rw [hrs]; rfl⟩

theorem parsePods_ok_fields {decode : List Nat → Except String RuntimeObject}
    {t t' : Table} (h : parsePods decode t = .ok t') :
    t'.ResourceVersion = t.ResourceVersion ∧ t'.Continue = t.Continue := by
  unfold parsePods at h
  match hrs : parsePodsRows decode 0 (t.Rows.getD []) with
  | .ok rs =>
      rw [hrs] at h
      simp only [Except.map] at h
      cases h
      exact ⟨rfl, rfl⟩
  | .error e => rw [hrs] at h; exact absurd h (by simp [Except.map])

theorem parsePods_error_position (decode : List Nat → Except String RuntimeObject)
    {t : Table} {good rest2 : List TableRow} {bad : TableRow}
    (hrows : t.Rows.getD [] = good ++ bad :: rest2)
    (hgood : ∀ r ∈ good, rowParseOk decode r) (hbad : ¬ rowParseOk decode bad) :
    ∃ e, parsePods decode t = .error e ∧ e.position = good.length := by
  obtain ⟨e, he, hpos⟩ := parsePodsRows_error_position decode hbad good rest2 0 hgood
  refine ⟨e, ?_, by rw [hpos]; omega⟩
  unfold parsePods
  rw [hrows, he]
  rfl

/-! ### Facts about the page loop of `queryPods` -/

theorem foldl_goAppend_getD (bs : List (Option (List α))) :
    ∀ a : Option (List α),
      (bs.foldl goAppend a).getD [] = a.getD [] ++ (bs.map fun b => b.getD []).flatten := by
  induction bs with
  | nil => intro a; simp
  | cons b rest ih =>
      intro a
      rw [List.foldl_cons, ih, goAppend_getD]
      simp [List.append_assoc]

theorem queryPodsLoop_nil (opts : podQueryOpts) (ct : String) (acc : Table) :
    queryPodsLoop opts [] ct acc = ([buildPodQueryRequest opts ct], none) := rfl

theorem queryPodsLoop_cons_error (opts : podQueryOpts)
    (rest : List (Except String Table)) (ct : String) (acc : Table) (e : String) :
    queryPodsLoop opts (.error e :: rest) ct acc =
      ([buildPodQueryRequest opts ct], some (.error e)) := rfl

theorem queryPodsLoop_cons_ok (opts : podQueryOpts)
    (rest : List (Except String Table)) (ct : String) (acc resp : Table) :
    queryPodsLoop opts (.ok resp :: rest) ct acc =
      if resp.Continue = "" then
        ([buildPodQueryRequest opts ct], some (.ok (scanPageMerge ct acc resp)))
      else
        (buildPodQueryRequest opts ct ::
            (queryPodsLoop opts rest resp.Continue (scanPageMerge ct acc resp)).1,
          (queryPodsLoop opts rest resp.Continue (scanPageMerge ct acc resp)).2) := rfl

theorem queryPodsLoop_ne (opts : podQueryOpts) :
    ∀ (front : List Table) (last acc : Table) (ct : String), ct ≠ "" →
      (∀ q ∈ front, q.Continue ≠ "") → last.Continue = "" →
      (queryPodsLoop opts ((front ++ [last]).map Except.ok) ct acc).2 =
        some (.ok
          { ResourceVersion :=
              ((front ++ [last]).map fun q => q.ResourceVersion).foldl goMaxString
                acc.ResourceVersion
            Continue := acc.Continue
            Rows := ((front ++ [last]).map fun q => q.Rows).foldl goAppend acc.Rows }) := by
  intro front
  induction front with
  | nil =>
      intro last acc ct hct _ hl
      simp only [List.nil_append, List.map_cons, List.map_nil,
        List.foldl_cons, List.foldl_nil]
      rw [queryPodsLoop_cons_ok, if_pos hl]
      simp [scanPageMerge, if_neg hct]
  | cons q front' ih =>
      intro last acc ct hct hf hl
      have hq : q.Continue ≠ "" := hf q (List.mem_cons_self q front')
      simp only [List.cons_append, List.map_cons, List.foldl_cons]
      rw [queryPodsLoop_cons_ok, if_neg hq]
      simp only
      rw [ih last _ q.Continue hq (fun x hx => hf x (List.mem_cons_of_mem _ hx)) hl]
      simp [scanPageMerge, if_neg hct]

theorem queryPodsLoop_trace (opts : podQueryOpts) :
    ∀ (replies : List (Except String Table)) (ct : String) (acc : Table),
      ∀ req ∈ (queryPodsLoop opts replies ct acc).1,
        ∃ tk, req = buildPodQueryRequest opts tk := by
  intro replies
  induction replies with
  | nil =>
      intro ct acc req hreq
      rw [queryPodsLoop_nil] at hreq
      exact ⟨ct, List.mem_singleton.mp hreq⟩
  | cons reply rest ih =>
      intro ct acc req hreq
      match reply with
      | .error e =>
          rw [queryPodsLoop_cons_error] at hreq
          exact ⟨ct, List.mem_singleton.mp hreq⟩
      | .ok resp =>
          rw [queryPodsLoop_cons_ok] at hreq
          by_cases hc : resp.Continue = ""
          · rw [if_pos hc] at hreq
            exact ⟨ct, List.mem_singleton.mp hreq⟩
          · rw [if_neg hc] at hreq
            rcases List.mem_cons.mp hreq with h | h
            · exact ⟨ct, h⟩
            · exact ih resp.Continue _ req h

theorem queryPods_trace (opts : podQueryOpts)
    (decode : List Nat → Except String RuntimeObject)
    (replies : List (Except String Table)) :
    (queryPods opts decode replies).1 =
      (queryPodsLoop opts replies "" Table.empty).1 := by
  rfl

theorem queryPods_of_loop_ok {opts : podQueryOpts}
    {decode : List Nat → Except String RuntimeObject}
    {replies : List (Except String Table)} {t t' : Table}
    (hloop : (queryPodsLoop opts replies "" Table.empty).2 = some (.ok t))
    (hparse : parsePods decode t = .ok t') :
    (queryPods opts decode replies).2 = some (t', none) := by
  unfold queryPods
  simp only
  rw [hloop]
  show (match parsePods decode t with
        | .error pe => some (Table.empty, some (QueryError.parseFailed pe))
        | .ok t' => some (t', none)) = _
  rw [hparse]

theorem queryPods_of_loop_parse_error {opts : podQueryOpts}
    {decode : List Nat → Except String RuntimeObject}
    {replies : List (Except String Table)} {t : Table} {e : ParsePodsError}
    (hloop : (queryPodsLoop opts replies "" Table.empty).2 = some (.ok t))
    (hparse : parsePods decode t = .error e) :
    (queryPods opts decode replies).2 =
      some (Table.empty, some (.parseFailed e)) := by
  unfold queryPods
  simp only
  rw [hloop]
  show (match parsePods decode t with
        | .error pe => some (Table.empty, some (QueryError.parseFailed pe))
        | .ok t' => some (t', none)) = _
  rw [hparse]

/-! ### Facts about `filterDaemonSetPods` -/

theorem hasDaemonSetOwner_iff (l : List OwnerReference) :
    hasDaemonSetOwner l = true ↔ ∃ o ∈ l, o.kind = "DaemonSet" := by
  induction l with
  | nil => simp [hasDaemonSetOwner]
  | cons o rest ih =>
      unfold hasDaemonSetOwner
      by_cases h : o.kind = "DaemonSet"
      · rw [if_pos h]
        exact iff_of_true rfl ⟨o, List.mem_cons_self o rest, h⟩
      · rw [if_neg h, ih]
        constructor
        · rintro ⟨x, hx, hk⟩
          exact ⟨x, List.mem_cons_of_mem _ hx, hk⟩
        · rintro ⟨x, hx, hk⟩
          rcases List.mem_cons.mp hx with hxo | hx
          · exact absurd (hxo ▸ hk) h
          · exact ⟨x, hx, hk⟩

theorem not_hasDaemonSetOwner_eq_decide (l : List OwnerReference) :
    (!hasDaemonSetOwner l) = decide (∀ o ∈ l, o.kind ≠ "DaemonSet") := by
  by_cases h : hasDaemonSetOwner l
  · obtain ⟨o, ho, hk⟩ := (hasDaemonSetOwner_iff l).mp h
    rw [h]
    simp only [Bool.not_true]
    symm
    simp only [decide_eq_false_iff_not]
    intro hall
    exact hall o ho hk
  · rw [Bool.not_eq_true] at h
    rw [h]
    simp only [Bool.not_false]
    symm
    simp only [decide_eq_true_eq]
    intro o ho hk
    exact absurd ((hasDaemonSetOwner_iff l).mpr ⟨o, ho, hk⟩) (by simp [h])

theorem filterDaemonSetRows_of_pods (rows : List TableRow)
    (h : ∀ r ∈ rows, (rowPod? r).isSome) :
    filterDaemonSetRows rows =
      some (rows.filter fun r =>
        !hasDaemonSetOwner ((rowPod? r).getD defaultPod).metadata.ownerReferences) := by
  induction rows with
  | nil => rfl
  | cons row rest ih =>
      have hrow := h row (List.mem_cons_self row rest)
      unfold filterDaemonSetRows
      match hp : rowPod? row with
      | none => rw [hp] at hrow; exact absurd hrow (by simp)
      | some p =>
          rw [ih fun r hr => h r (List.mem_cons_of_mem _ hr)]
          simp only [Option.map_some]
          rw [List.filter_cons]
          by_cases hds : hasDaemonSetOwner p.metadata.ownerReferences
          · rw [hds, if_neg (by rw [hp]; simp [hds])]
            rfl
          · rw [Bool.not_eq_true] at hds
            rw [hds, if_pos (by rw [hp]; simp [hds])]
            rfl

/-! ### Facts about `parsePosArgs` -/

theorem parsePosArgsLoop_ok {σ : Type _} (lp : String → Except String σ) :
    ∀ (args : List String) (sels : List σ) (names : List String)
      (sels' : List σ) (names' : List String),
      parsePosArgsLoop lp args sels names = .ok (sels', names') →
      names' = names ++ args.filter (fun a => !argIsSelector a) ∧
        ∃ parsed, (args.filter argIsSelector).mapM lp = .ok parsed ∧
          sels' = sels ++ parsed := by
  intro args
  induction args with
  | nil =>
      intro sels names sels' names' h
      unfold parsePosArgsLoop at h
      cases h
      exact ⟨by simp, [], rfl, by simp⟩
  | cons arg rest ih =>
      intro sels names sels' names' h
      unfold parsePosArgsLoop at h
      by_cases hsel : argIsSelector arg
      · rw [if_neg (by simp [hsel])] at h
        match hlp : lp arg with
        | .error e => rw [hlp] at h; exact absurd h (by simp)
        | .ok s =>
            rw [hlp] at h
            obtain ⟨hn, parsed, hm, hs⟩ := ih _ _ _ _ h
            refine ⟨by rw [hn, List.filter_cons, if_neg (by simp [hsel])], s :: parsed, ?_, ?_⟩
            · rw [List.filter_cons, if_pos (by simp [hsel]), List.mapM_cons, hlp, hm]
              rfl
            · rw [hs, List.append_assoc]
              rfl
      · rw [if_pos (by simp [hsel])] at h
        obtain ⟨hn, parsed, hm, hs⟩ := ih _ _ _ _ h
        refine ⟨?_, parsed, ?_, hs⟩
        · rw [hn, List.filter_cons, if_pos (by simp [hsel]), List.append_assoc]
          rfl
        · rw [List.filter_cons, if_neg (by simp [hsel])]
          exact hm

theorem parsePosArgsLoop_error {σ : Type _} (lp : String → Except String σ) :
    ∀ (args : List String) (sels : List σ) (names : List String),
      (∃ a ∈ args, argIsSelector a ∧ ∃ m, lp a = .error m) →
      ∃ msg, parsePosArgsLoop lp args sels names = .error msg := by
  intro args
  induction args with
  | nil =>
      rintro sels names ⟨a, ha, -⟩
      exact absurd ha (List.not_mem_nil a)
  | cons arg rest ih =>
      rintro sels names ⟨a, ha, hasel, m, hm⟩
      unfold parsePosArgsLoop
      by_cases hsel : argIsSelector arg
      · rw [if_neg (by simp [hsel])]
        match hlp : lp arg with
        | .error e => exact ⟨selectorErrWrap arg e, rfl⟩
        | .ok s =>
            rcases List.mem_cons.mp ha with h | h
            · subst h; rw [hlp] at hm; exact absurd hm (by simp)
            · exact ih _ _ ⟨a, h, hasel, m, hm⟩
      · rw [if_pos (by simp [hsel])]
        rcases List.mem_cons.mp ha with h | h
        · subst h; exact absurd hasel hsel
        · exact ih _ _ ⟨a, h, hasel, m, hm⟩

/-! ### Remaining shared facts -/

theorem strategies_distinct : queryPodPerNodeInParallel ≠ queryAllPods := by
  intro h
  exact absurd (congrArg String.data h) (by simp [queryPodPerNodeInParallel, queryAllPods])

theorem groupWaitFirstError_append_ok
    (pre post : List (String × Except String Table)) (node e : String)
    (hpre : ∀ o ∈ pre, ∃ t, o.2 = Except.ok t) :
    groupWaitFirstError (pre ++ (node, .error e) :: post) =
      some (workerErrWrap node e) := by
  induction pre with
  | nil => rfl
  | cons o pre' ih =>
      obtain ⟨t, ht⟩ := hpre o (List.mem_cons_self o pre')
      obtain ⟨n, x⟩ := o
      simp only at ht
      subst ht
      rw [List.cons_append]
      exact ih fun q hq => hpre q (List.mem_cons_of_mem _ hq)

theorem findPods_fst_of_ok (workers : List (String × Table)) :
    (findPodsByQueryingNodesInParallel
        (workers.map fun w => (w.1, Except.ok w.2))).1 =
      gatherResponses (workers.map fun w => w.2) := by
  show gatherResponses
      (List.filterMap (fun o => o.2.toOption)
        (workers.map fun w => (w.1, Except.ok w.2))) = _
  rw [List.filterMap_map]
  have hfn : ((fun (o : String × Except String Table) => o.2.toOption) ∘
      fun (w : String × Table) => (w.1, Except.ok w.2)) =
      some ∘ fun w => w.2 :=
    funext fun w => rfl
  rw [hfn, List.filterMap_eq_map]

theorem getD_ite_isEmpty (f : List α) :
    ((if f.isEmpty then none else some f) : Option (List α)).getD [] = f := by
  match f with
  | [] => rfl
  | x :: xs => rfl

/-! ## Claim theorems -/

/-- C1: `chooseStrategy` equals the reference policy: with no resolved
total (`totalHosts = 0`) it always picks scatter-gather (by-node); with
a positive total it picks scatter-gather exactly when
`matchedHosts / totalHosts < 0.25` and the global scan (all-pods)
otherwise, including exactly at ratio `0.25`. -/
theorem chooseStrategy_reference_policy (totalHosts matchedHosts : ℕ) :
    (totalHosts = 0 →
      chooseStrategy totalHosts matchedHosts = queryPodPerNodeInParallel) ∧
    (0 < totalHosts →
      ((chooseStrategy totalHosts matchedHosts = queryPodPerNodeInParallel ↔
          (matchedHosts : ℚ) / (totalHosts : ℚ) < 1/4) ∧
        (chooseStrategy totalHosts matchedHosts = queryAllPods ↔
          ¬ ((matchedHosts : ℚ) / (totalHosts : ℚ) < 1/4)))) := by
  constructor
  · intro h
    unfold chooseStrategy
    rw [if_pos h]
  · intro h
    have h0 : ¬ totalHosts = 0 := Nat.pos_iff_ne_zero.mp h
    have h14 : (0.25 : ℚ) = 1/4 := by norm_num
    unfold chooseStrategy
    rw [if_neg h0, h14]
    by_cases hr : (matchedHosts : ℚ) / (totalHosts : ℚ) < 1/4
    · rw [if_pos hr]
      exact ⟨iff_of_true rfl hr,
        iff_of_false (fun hc => strategies_distinct hc) (not_not_intro hr)⟩
    · rw [if_neg hr]
      exact ⟨iff_of_false (fun hc => strategies_distinct hc.symm) hr,
        iff_of_true rfl hr⟩

/-- C1 witness: at the boundary ratio 2/8 = 0.25 the global scan is
chosen, and at 2/9 < 0.25 scatter-gather is chosen. -/
theorem chooseStrategy_reference_policy_witness :
    chooseStrategy 8 2 = queryAllPods ∧
      chooseStrategy 9 2 = queryPodPerNodeInParallel := by
  constructor
  · exact ((chooseStrategy_reference_policy 8 2).2 (by norm_num)).2.mpr (by norm_num)
  · exact ((chooseStrategy_reference_policy 9 2).2 (by norm_num)).1.mpr (by norm_num)

/-- C3 counterexample: a per-host response carrying a `nil` row slice
and the maximal token `"9"` completes first; the next response
(token `"5"`, one row) then replaces the accumulator wholesale, so the
resulting table's token is `"5"`, not the lexicographic maximum `"9"`
of the per-host tokens. -/
theorem parallel_snapshot_token_not_always_max :
    (findPodsByQueryingNodesInParallel
        [("h1", Except.ok ⟨"9", "", none⟩),
         ("h2", Except.ok ⟨"5", "",
            some [⟨⟨some (.pod ⟨⟨"p", "ns", []⟩, ⟨"n"⟩⟩), []⟩⟩]⟩)]).1.ResourceVersion
        = "5" ∧
      (findPodsByQueryingNodesInParallel
        [("h1", Except.ok ⟨"9", "", none⟩),
         ("h2", Except.ok ⟨"5", "",
            some [⟨⟨some (.pod ⟨⟨"p", "ns", []⟩, ⟨"n"⟩⟩), []⟩⟩]⟩)]).2 = none ∧
      strCompare "5" "9" = .lt := by
  exact ⟨rfl, rfl, rfl⟩

/-- C3 (amended): for per-host responses that all carry a non-`nil`
row slice, the table produced by the parallel strategy's merge carries
the lexicographically maximal resource-version token among all
responses, whatever the completion order; a response delivered while
the accumulator's rows are still `nil` instead replaces the running
token wholesale (see the counterexample). -/
theorem parallel_snapshot_token_max_of_rows_present
    (workers : List (String × Table)) (h1 : workers ≠ [])
    (h2 : ∀ w ∈ workers, w.2.Rows ≠ none) :
    (findPodsByQueryingNodesInParallel
        (workers.map fun w => (w.1, Except.ok w.2))).1.ResourceVersion ∈
      (workers.map fun w => w.2.ResourceVersion) ∧
    ∀ tk ∈ (workers.map fun w => w.2.ResourceVersion),
      tk ≤ (findPodsByQueryingNodesInParallel
        (workers.map fun w => (w.1, Except.ok w.2))).1.ResourceVersion := by
  rw [findPods_fst_of_ok]
  match workers with
  | [] => exact absurd rfl h1
  | w :: rest =>
      have hw : w.2.Rows ≠ none := h2 w (List.mem_cons_self w rest)
      obtain ⟨l, hl⟩ := Option.ne_none_iff_exists'.mp hw
      have hfirst : gatherResponses ((w :: rest).map fun x => x.2) =
          (rest.map fun x => x.2).foldl mergeWorkerResponse w.2 := by
        unfold gatherResponses
        rw [List.map_cons, List.foldl_cons]
        rfl
      have hrv : (gatherResponses ((w :: rest).map fun x => x.2)).ResourceVersion =
          ((rest.map fun x => x.2).map fun r => r.ResourceVersion).foldl goMaxString
            w.2.ResourceVersion := by
        rw [hfirst]
        exact foldl_merge_rv _ _ l hl fun r hr => by
          obtain ⟨x, hx, hxr⟩ := List.mem_map.mp hr
          exact hxr ▸ h2 x (List.mem_cons_of_mem _ hx)
      have hM : ((rest.map fun x => x.2).map fun r => r.ResourceVersion) =
          rest.map fun w => w.2.ResourceVersion := by
        rw [List.map_map]
        rfl
      rw [hrv, hM, List.map_cons]
      constructor
      · rcases foldl_goMaxString_mem (rest.map fun w => w.2.ResourceVersion)
          w.2.ResourceVersion with h | h
        · rw [h]
          exact List.mem_cons_self _ _
        · exact List.mem_cons_of_mem _ h
      · intro tk htk
        obtain ⟨hle0, hall⟩ := foldl_goMaxString_le
          (rest.map fun w => w.2.ResourceVersion) w.2.ResourceVersion
        rcases List.mem_cons.mp htk with h | h
        · exact h ▸ hle0
        · exact hall tk h

/-- C3 witness for the amended theorem: three non-empty responses with
tokens `"3"`, `"9"`, `"5"` yield the maximal token `"9"`. -/
theorem parallel_snapshot_token_max_of_rows_present_witness :
    (findPodsByQueryingNodesInParallel
        ([("h1", ⟨"3", "", some []⟩), ("h2", ⟨"9", "", some []⟩),
          ("h3", ⟨"5", "", some []⟩)].map
            fun w => (w.1, Except.ok w.2))).1.ResourceVersion ∈
      (["3", "9", "5"] : List String) := by
  have h := parallel_snapshot_token_max_of_rows_present
    [("h1", ⟨"3", "", some []⟩), ("h2", ⟨"9", "", some []⟩), ("h3", ⟨"5", "", some []⟩)]
    (by decide) (by decide)
  exact h.1

/-- C5: when at least one scatter-gather worker fails, the call's error
is the first failure encountered in completion order (wrapped with the
failing node's name), and `main` exits fatally without handing the
accumulated table to post-processing or printing — the caller never
receives a result set together with an error. -/
theorem scatter_gather_all_or_nothing
    (pre post : List (String × Except String Table)) (node e : String)
    (hpre : ∀ o ∈ pre, ∃ t, o.2 = Except.ok t) :
    (findPodsByQueryingNodesInParallel (pre ++ (node, .error e) :: post)).2 =
      some (workerErrWrap node e) ∧
    ∀ includeDaemonSets,
      mainHandleQueryResult includeDaemonSets
        (findPodsByQueryingNodesInParallel (pre ++ (node, .error e) :: post)) =
          none := by
  have hgw := groupWaitFirstError_append_ok pre post node e hpre
  refine ⟨hgw, ?_⟩
  intro b
  unfold mainHandleQueryResult
  rw [show (findPodsByQueryingNodesInParallel (pre ++ (node, .error e) :: post)).2 =
      some (workerErrWrap node e) from hgw]

/-- C5 witness: one successful worker already completed, the second
fails; the error is the wrapped failure of the second worker and no
result is delivered. -/
theorem scatter_gather_all_or_nothing_witness :
    (findPodsByQueryingNodesInParallel
        [("h1", Except.ok ⟨"1", "", some []⟩), ("h2", Except.error "boom")]).2 =
      some (workerErrWrap "h2" "boom") ∧
    mainHandleQueryResult false
      (findPodsByQueryingNodesInParallel
        [("h1", Except.ok ⟨"1", "", some []⟩), ("h2", Except.error "boom")]) = none := by
  have h := scatter_gather_all_or_nothing
    [("h1", Except.ok ⟨"1", "", some []⟩)] [] "h2" "boom"
    (by intro o ho; rw [List.mem_singleton] at ho; subst ho; exact ⟨_, rfl⟩)
  exact ⟨h.1, h.2 false⟩

/-- C2: in one paginated scan the resulting snapshot token is the first
page's token merged with each subsequent page's token by the
monotonic-advance rule (the Go builtin `max`, which replaces the
running token only when the page's token orders lexicographically
after it). -/
theorem queryPods_snapshot_token_monotonic_merge (opts : podQueryOpts)
    (decode : List Nat → Except String RuntimeObject)
    (front : List Table) (last : Table)
    (hfront : ∀ q ∈ front, q.Continue ≠ "") (hlast : last.Continue = "")
    (hrows : ∀ q ∈ front ++ [last], ∀ row ∈ q.Rows.getD [], rowParseOk decode row) :
    ∃ t, (queryPods opts decode ((front ++ [last]).map Except.ok)).2 =
        some (t, none) ∧
      t.ResourceVersion =
        (((front ++ [last]).tail).map fun q => q.ResourceVersion).foldl goMaxString
          ((front ++ [last]).head (by simp)).ResourceVersion := by
  match front with
  | [] =>
      have hloop : (queryPodsLoop opts (([] ++ [last]).map Except.ok) ""
          Table.empty).2 = some (.ok last) := by
        rw [List.nil_append, List.map_cons, List.map_nil,
          queryPodsLoop_cons_ok, if_pos hlast]
        rfl
      have hparse_all : ∀ row ∈ last.Rows.getD [], rowParseOk decode row :=
        fun row hrow => hrows last (by simp) row hrow
      obtain ⟨t', hps⟩ := (parsePods_ok_iff decode last).mpr hparse_all
      refine ⟨t', queryPods_of_loop_ok hloop hps, ?_⟩
      obtain ⟨hrv', -⟩ := parsePods_ok_fields hps
      rw [hrv']
      simp
  | p :: front' =>
      have hp : p.Continue ≠ "" := hfront p (List.mem_cons_self p front')
      have hf' : ∀ q ∈ front', q.Continue ≠ "" := fun q hq =>
        hfront q (List.mem_cons_of_mem _ hq)
      have hloop : (queryPodsLoop opts (((p :: front') ++ [last]).map Except.ok) ""
          Table.empty).2 = some (.ok
            { ResourceVersion :=
                ((front' ++ [last]).map fun q => q.ResourceVersion).foldl goMaxString
                  p.ResourceVersion
              Continue := p.Continue
              Rows := ((front' ++ [last]).map fun q => q.Rows).foldl goAppend
                p.Rows }) := by
        rw [List.cons_append, List.map_cons, queryPodsLoop_cons_ok, if_neg hp]
        exact queryPodsLoop_ne opts front' last p p.Continue hp hf' hlast
      have hparse_all : ∀ row ∈
          (((front' ++ [last]).map fun q => q.Rows).foldl goAppend p.Rows).getD [],
          rowParseOk decode row := by
        intro row hrow
        rw [foldl_goAppend_getD] at hrow
        rcases List.mem_append.mp hrow with h | h
        · exact hrows p (List.mem_cons_self p (front' ++ [last])) row h
        · obtain ⟨ll, hll, hrowll⟩ := List.mem_flatten.mp h
          obtain ⟨ob, hob, hbeq⟩ := List.mem_map.mp hll
          obtain ⟨q, hq, hqr⟩ := List.mem_map.mp hob
          refine hrows q ?_ row ?_
          · rw [List.cons_append]
            exact List.mem_cons_of_mem _ hq
          · rw [hqr, hbeq]
            exact hrowll
      obtain ⟨t', hps⟩ := (parsePods_ok_iff decode
        { ResourceVersion :=
            ((front' ++ [last]).map fun q => q.ResourceVersion).foldl goMaxString
              p.ResourceVersion
          Continue := p.Continue
          Rows := ((front' ++ [last]).map fun q => q.Rows).foldl goAppend
            p.Rows }).mpr hparse_all
      refine ⟨t', queryPods_of_loop_ok hloop hps, ?_⟩
      obtain ⟨hrv', -⟩ := parsePods_ok_fields hps
      rw [hrv']
      simp only [List.cons_append, List.head_cons, List.tail_cons]

/-- C2 witness: pages carrying tokens `"5"`, `"7"`, `"6"` in that
arrival order produce the final snapshot token `"7"` (monotonic
advance, not last-write). -/
theorem queryPods_snapshot_token_monotonic_merge_witness :
    ∃ t, (queryPods ⟨"", false⟩ (fun _ => Except.error "unused")
        ((([⟨"5", "c1", none⟩, ⟨"7", "c2", none⟩] : List Table) ++
          ([⟨"6", "", none⟩] : List Table)).map Except.ok)).2 = some (t, none) ∧
      t.ResourceVersion = "7" := by
  obtain ⟨t, h1, h2⟩ := queryPods_snapshot_token_monotonic_merge
    ⟨"", false⟩ (fun _ => Except.error "unused")
    [⟨"5", "c1", none⟩, ⟨"7", "c2", none⟩] ⟨"6", "", none⟩
    (by decide) rfl (by decide)
  refine ⟨t, h1, by rw [h2]; rfl⟩

/-- C4 counterexample: two per-host responses carry distinct rows whose
pods share the (host, namespace, name) key (they differ in their owner
references); swapping the completion order changes the sequence
presented after the final sort, although the two orders are
permutations of each other. -/
theorem scatter_merge_presentation_order_dependent :
    ([(⟨"1", "", some [⟨⟨some (.pod ⟨⟨"p", "ns", [⟨"ReplicaSet", "rs1", "u1"⟩]⟩, ⟨"n"⟩⟩), []⟩⟩]⟩ : Table),
      ⟨"1", "", some [⟨⟨some (.pod ⟨⟨"p", "ns", [⟨"Job", "j1", "u2"⟩]⟩, ⟨"n"⟩⟩), []⟩⟩]⟩].Perm
      [⟨"1", "", some [⟨⟨some (.pod ⟨⟨"p", "ns", [⟨"Job", "j1", "u2"⟩]⟩, ⟨"n"⟩⟩), []⟩⟩]⟩,
       ⟨"1", "", some [⟨⟨some (.pod ⟨⟨"p", "ns", [⟨"ReplicaSet", "rs1", "u1"⟩]⟩, ⟨"n"⟩⟩), []⟩⟩]⟩]) ∧
    sortRows (gatherRows
      [⟨"1", "", some [⟨⟨some (.pod ⟨⟨"p", "ns", [⟨"ReplicaSet", "rs1", "u1"⟩]⟩, ⟨"n"⟩⟩), []⟩⟩]⟩,
       ⟨"1", "", some [⟨⟨some (.pod ⟨⟨"p", "ns", [⟨"Job", "j1", "u2"⟩]⟩, ⟨"n"⟩⟩), []⟩⟩]⟩]) ≠
    sortRows (gatherRows
      [⟨"1", "", some [⟨⟨some (.pod ⟨⟨"p", "ns", [⟨"Job", "j1", "u2"⟩]⟩, ⟨"n"⟩⟩), []⟩⟩]⟩,
       ⟨"1", "", some [⟨⟨some (.pod ⟨⟨"p", "ns", [⟨"ReplicaSet", "rs1", "u1"⟩]⟩, ⟨"n"⟩⟩), []⟩⟩]⟩]) := by
  constructor
  · exact List.Perm.swap _ _ []
  · decide

/-- C4 (amended): the scatter-gather merge is commutative over
completion order at the level of the instance multiset — for every
permutation of the completion order the merged rows are a permutation
of each other, and the finally presented sequence is sorted by
(host, namespace, name); the presented sequences coincide whenever no
two merged rows share the same (host, namespace, name) key (as is the
case for genuine per-host pod listings). -/
theorem scatter_merge_order_independent
    (responses responses' : List Table) (hperm : responses'.Perm responses) :
    (gatherRows responses').Perm (gatherRows responses) ∧
    (sortRows (gatherRows responses)).Sorted rowLe ∧
    (((gatherRows responses).map rowKey).Nodup →
      sortRows (gatherRows responses') = sortRows (gatherRows responses)) := by
  have hrows : (gatherRows responses').Perm (gatherRows responses) := by
    rw [gatherRows_eq_flatten, gatherRows_eq_flatten]
    exact perm_flatten (hperm.map _)
  refine ⟨hrows, sortRows_sorted _, ?_⟩
  intro hnd
  have hsp : (sortRows (gatherRows responses')).Perm (sortRows (gatherRows responses)) :=
    ((sortRows_perm _).trans hrows).trans (sortRows_perm _).symm
  have hnd' : ((sortRows (gatherRows responses')).map rowKey).Nodup := by
    have hp : ((sortRows (gatherRows responses')).map rowKey).Perm
        ((gatherRows responses).map rowKey) :=
      ((sortRows_perm _).trans hrows).map rowKey
    exact hp.nodup_iff.mpr hnd
  exact eq_of_perm_sorted_nodupKeys hsp (sortRows_sorted _) (sortRows_sorted _) hnd'

/-- C4 witness: with two single-row responses whose pods have distinct
keys, both completion orders produce the same sorted presentation. -/
theorem scatter_merge_order_independent_witness :
    (gatherRows
        [⟨"1", "", some [⟨⟨some (.pod ⟨⟨"p2", "ns", []⟩, ⟨"n2"⟩⟩), []⟩⟩]⟩,
         ⟨"1", "", some [⟨⟨some (.pod ⟨⟨"p1", "ns", []⟩, ⟨"n1"⟩⟩), []⟩⟩]⟩]).Perm
      (gatherRows
        [⟨"1", "", some [⟨⟨some (.pod ⟨⟨"p1", "ns", []⟩, ⟨"n1"⟩⟩), []⟩⟩]⟩,
         ⟨"1", "", some [⟨⟨some (.pod ⟨⟨"p2", "ns", []⟩, ⟨"n2"⟩⟩), []⟩⟩]⟩]) ∧
    sortRows (gatherRows
        [⟨"1", "", some [⟨⟨some (.pod ⟨⟨"p2", "ns", []⟩, ⟨"n2"⟩⟩), []⟩⟩]⟩,
         ⟨"1", "", some [⟨⟨some (.pod ⟨⟨"p1", "ns", []⟩, ⟨"n1"⟩⟩), []⟩⟩]⟩]) =
      sortRows (gatherRows
        [⟨"1", "", some [⟨⟨some (.pod ⟨⟨"p1", "ns", []⟩, ⟨"n1"⟩⟩), []⟩⟩]⟩,
         ⟨"1", "", some [⟨⟨some (.pod ⟨⟨"p2", "ns", []⟩, ⟨"n2"⟩⟩), []⟩⟩]⟩]) := by
  have h := scatter_merge_order_independent
    [⟨"1", "", some [⟨⟨some (.pod ⟨⟨"p1", "ns", []⟩, ⟨"n1"⟩⟩), []⟩⟩]⟩,
     ⟨"1", "", some [⟨⟨some (.pod ⟨⟨"p2", "ns", []⟩, ⟨"n2"⟩⟩), []⟩⟩]⟩]
    [⟨"1", "", some [⟨⟨some (.pod ⟨⟨"p2", "ns", []⟩, ⟨"n2"⟩⟩), []⟩⟩]⟩,
     ⟨"1", "", some [⟨⟨some (.pod ⟨⟨"p1", "ns", []⟩, ⟨"n1"⟩⟩), []⟩⟩]⟩]
    (List.Perm.swap _ _ [])
  exact ⟨h.1, h.2.2 (by decide)⟩

/-- C6 counterexample: with the watch-cache hint enabled, the second
page request of a scan carries both the continuation token and the
`resourceVersion=0` hint — the hint is not restricted to the first
page request. -/
theorem watch_cache_hint_on_continuation_request :
    ((queryPods ⟨"", true⟩ (fun _ => Except.error "unused")
        [Except.ok ⟨"5", "c1", none⟩, Except.ok ⟨"7", "", none⟩]).1)[1]? =
      some (buildPodQueryRequest ⟨"", true⟩ "c1") ∧
    (buildPodQueryRequest ⟨"", true⟩ "c1").continueParam = some "c1" ∧
    (buildPodQueryRequest ⟨"", true⟩ "c1").resourceVersionParam = some "0" := by
  exact ⟨rfl, rfl, rfl⟩

/-- C6 (amended): when the watch-cache hint is enabled, *every* page
request of the scan is annotated with `resourceVersion=0`, including
every request that carries a continuation token. -/
theorem watch_cache_hint_on_every_page_request (opts : podQueryOpts)
    (decode : List Nat → Except String RuntimeObject)
    (replies : List (Except String Table)) (h : opts.useWatchCache = true) :
    ∀ req ∈ (queryPods opts decode replies).1,
      req.resourceVersionParam = some "0" := by
  intro req hreq
  rw [queryPods_trace] at hreq
  obtain ⟨tk, htk⟩ := queryPodsLoop_trace opts replies "" Table.empty req hreq
  rw [htk]
  unfold buildPodQueryRequest
  simp [h]

/-- C6 witness: the continuation-carrying second request of the
two-page scan above is annotated with the hint. -/
theorem watch_cache_hint_on_every_page_request_witness :
    (buildPodQueryRequest ⟨"", true⟩ "c1").resourceVersionParam = some "0" := by
  exact watch_cache_hint_on_every_page_request ⟨"", true⟩
    (fun _ => Except.error "unused")
    [Except.ok ⟨"5", "c1", none⟩, Except.ok ⟨"7", "", none⟩] rfl
    (buildPodQueryRequest ⟨"", true⟩ "c1") (by decide)

/-- C7: `parsePods` succeeds exactly when every row already holds a
pod or holds a raw payload that decodes successfully; when the first
offending row sits at position `i`, the error identifies `i`; and when
parsing fails the enclosing scan returns the empty table together with
the wrapped parse error — no partial results. -/
theorem parsePods_failure_semantics (decode : List Nat → Except String RuntimeObject) :
    (∀ t : Table, (∃ t', parsePods decode t = .ok t') ↔
        ∀ row ∈ t.Rows.getD [], rowParseOk decode row) ∧
    (∀ (t : Table) (good rest2 : List TableRow) (bad : TableRow),
        t.Rows.getD [] = good ++ bad :: rest2 →
        (∀ r ∈ good, rowParseOk decode r) → ¬ rowParseOk decode bad →
        ∃ e, parsePods decode t = .error e ∧ e.position = good.length) ∧
    (∀ (opts : podQueryOpts) (replies : List (Except String Table))
        (t : Table) (e : ParsePodsError),
        (queryPodsLoop opts replies "" Table.empty).2 = some (.ok t) →
        parsePods decode t = .error e →
        (queryPods opts decode replies).2 =
          some (Table.empty, some (.parseFailed e))) := by
  refine ⟨parsePods_ok_iff decode, ?_, ?_⟩
  · intro t good rest2 bad hrows hgood hbad
    exact parsePods_error_position decode hrows hgood hbad
  · intro opts replies t e hloop hparse
    exact queryPods_of_loop_parse_error hloop hparse

/-- C7 witness: a table whose row 0 holds a pod and whose row 1 holds
a typed non-pod object fails to parse with an error identifying
position 1. -/
theorem parsePods_failure_semantics_witness :
    ∃ e, parsePods (fun _ => Except.error "unused")
        (⟨"", "", some
          [⟨⟨some (.pod ⟨⟨"p", "ns", []⟩, ⟨"n"⟩⟩), []⟩⟩,
           ⟨⟨some (.other "Secret"), []⟩⟩]⟩ : Table) = .error e ∧
      e.position = 1 := by
  have h := (parsePods_failure_semantics (fun _ => Except.error "unused")).2.1
    (⟨"", "", some
      [⟨⟨some (.pod ⟨⟨"p", "ns", []⟩, ⟨"n"⟩⟩), []⟩⟩,
       ⟨⟨some (.other "Secret"), []⟩⟩]⟩ : Table)
    [⟨⟨some (.pod ⟨⟨"p", "ns", []⟩, ⟨"n"⟩⟩), []⟩⟩] []
    ⟨⟨some (.other "Secret"), []⟩⟩ rfl (by decide) (by decide)
  exact h

/-- C8: with the pods-only precondition that the Go type assertion
requires, `filterDaemonSetPods` keeps exactly the rows whose pod has
no owner reference of kind `DaemonSet`; `main` applies it only when
`--include-daemonsets` is off, and with the flag on every instance is
kept (the post-processing only reorders). -/
theorem filterDaemonSetPods_spec (t : Table)
    (h : ∀ row ∈ t.Rows.getD [], (rowPod? row).isSome) :
    (∃ t', filterDaemonSetPods t = some t' ∧
        t'.Rows.getD [] = (t.Rows.getD []).filter (fun row =>
          decide (∀ o ∈ ((rowPod? row).getD defaultPod).metadata.ownerReferences,
            o.kind ≠ "DaemonSet"))) ∧
    (∀ t', filterDaemonSetPods t = some t' →
        mainPostprocess false t = some { t' with Rows := t'.Rows.map sortRows }) ∧
    (∃ t'', mainPostprocess true t = some t'' ∧
        (t''.Rows.getD []).Perm (t.Rows.getD [])) := by
  refine ⟨?_, ?_, ?_⟩
  · have hf := filterDaemonSetRows_of_pods (t.Rows.getD []) h
    refine ⟨{ t with Rows :=
        (if ((t.Rows.getD []).filter (fun r =>
            !hasDaemonSetOwner ((rowPod? r).getD defaultPod).metadata.ownerReferences)).isEmpty
         then none
         else some ((t.Rows.getD []).filter (fun r =>
            !hasDaemonSetOwner ((rowPod? r).getD defaultPod).metadata.ownerReferences))) },
      ?_, ?_⟩
    · unfold filterDaemonSetPods
      rw [hf]
      rfl
    · simp only
      rw [getD_ite_isEmpty]
      exact List.filter_congr fun r _ => not_hasDaemonSetOwner_eq_decide _
  · intro t' ht'
    unfold mainPostprocess
    rw [if_pos (by decide), ht']
    rfl
  · refine ⟨{ t with Rows := t.Rows.map sortRows }, ?_, ?_⟩
    · unfold mainPostprocess
      rw [if_neg (by decide)]
      rfl
    · simp only
      match t.Rows with
      | none => exact List.Perm.refl _
      | some l =>
          simp only [Option.map_some, Option.getD_some]
          exact sortRows_perm l

/-- C8 witness: an instance owned only by a ReplicaSet is kept while
an instance that additionally has a DaemonSet owner is dropped, and
with `--include-daemonsets` both instances survive. -/
theorem filterDaemonSetPods_spec_witness :
    (∃ t', filterDaemonSetPods
        (⟨"", "", some
          [⟨⟨some (.pod ⟨⟨"p1", "ns", [⟨"ReplicaSet", "rs1", "u1"⟩]⟩, ⟨"n"⟩⟩), []⟩⟩,
           ⟨⟨some (.pod ⟨⟨"p2", "ns",
              [⟨"ReplicaSet", "rs1", "u1"⟩, ⟨"DaemonSet", "ds1", "u2"⟩]⟩, ⟨"n"⟩⟩), []⟩⟩]⟩ : Table)
        = some t' ∧
      t'.Rows.getD [] =
        [⟨⟨some (.pod ⟨⟨"p1", "ns", [⟨"ReplicaSet", "rs1", "u1"⟩]⟩, ⟨"n"⟩⟩), []⟩⟩]) ∧
    (∃ t'', mainPostprocess true
        (⟨"", "", some
          [⟨⟨some (.pod ⟨⟨"p1", "ns", [⟨"ReplicaSet", "rs1", "u1"⟩]⟩, ⟨"n"⟩⟩), []⟩⟩,
           ⟨⟨some (.pod ⟨⟨"p2", "ns",
              [⟨"ReplicaSet", "rs1", "u1"⟩, ⟨"DaemonSet", "ds1", "u2"⟩]⟩, ⟨"n"⟩⟩), []⟩⟩]⟩ : Table)
        = some t'' ∧ (t''.Rows.getD []).length = 2) := by
  have h := filterDaemonSetPods_spec
    (⟨"", "", some
      [⟨⟨some (.pod ⟨⟨"p1", "ns", [⟨"ReplicaSet", "rs1", "u1"⟩]⟩, ⟨"n"⟩⟩), []⟩⟩,
       ⟨⟨some (.pod ⟨⟨"p2", "ns",
          [⟨"ReplicaSet", "rs1", "u1"⟩, ⟨"DaemonSet", "ds1", "u2"⟩]⟩, ⟨"n"⟩⟩), []⟩⟩]⟩ : Table)
    (by decide)
  obtain ⟨⟨t', ht', hrows⟩, -, ⟨t'', ht'', hperm⟩⟩ := h
  refine ⟨⟨t', ht', by rw [hrows]; rfl⟩, ⟨t'', ht'', ?_⟩⟩
  rw [hperm.length_eq]
  rfl

/-- C9: `cmpPod` realizes the lexicographic total (pre)order on the
key (host name, namespace, instance name): it equals the chained
string comparison in that priority order, compares equal exactly on
equal keys, is antisymmetric under swapping, and is transitive; the
final sort is a permutation of its input and is sorted under the
induced order, so repeated invocations over the same list present the
same sequence. -/
theorem cmpPod_total_order_and_sort :
    (∀ a b : Pod, cmpPod a b =
        (strCompare a.spec.nodeName b.spec.nodeName).then
          ((strCompare a.metadata.«namespace» b.metadata.«namespace»).then
            (strCompare a.metadata.name b.metadata.name))) ∧
    (∀ a b : Pod, (cmpPod a b = .eq ↔ podKey a = podKey b)) ∧
    (∀ a b : Pod, cmpPod a b = (cmpPod b a).swap) ∧
    (∀ a b c : Pod, cmpPod a b ≠ .gt → cmpPod b c ≠ .gt → cmpPod a c ≠ .gt) ∧
    (∀ l : List TableRow, (sortRows l).Perm l ∧ (sortRows l).Sorted rowLe) :=
  ⟨cmpPod_then, cmpPod_eq_iff_key, cmpPod_swap,
    fun _ _ _ hab hbc => cmpPod_le_trans hab hbc,
    fun l => ⟨sortRows_perm l, sortRows_sorted l⟩⟩

/-- C9 witness: transitivity at three concrete pods ordered by node
name, namespace and name. -/
theorem cmpPod_total_order_and_sort_witness :
    cmpPod ⟨⟨"a", "ns1", []⟩, ⟨"node1"⟩⟩ ⟨⟨"c", "ns2", []⟩, ⟨"node2"⟩⟩ ≠ .gt := by
  exact cmpPod_total_order_and_sort.2.2.2.1
    ⟨⟨"a", "ns1", []⟩, ⟨"node1"⟩⟩ ⟨⟨"b", "ns1", []⟩, ⟨"node2"⟩⟩
    ⟨⟨"c", "ns2", []⟩, ⟨"node2"⟩⟩ (by decide) (by decide)

/-- C10: `parsePosArgs` rejects an empty argument list; on success the
node names are exactly the arguments containing neither `=` nor a
space (in order) and the selectors are the parses of all the other
arguments (in order); and if any selector-classified argument fails to
parse, the whole call errors, returning no names and no selectors. -/
theorem parsePosArgs_classification {σ : Type} (labelsParse : String → Except String σ)
    (args : List String) :
    (args = [] → ∃ msg, parsePosArgs labelsParse args = .error msg) ∧
    (∀ sels names, parsePosArgs labelsParse args = .ok (sels, names) →
        names = args.filter (fun a => !argIsSelector a) ∧
        (args.filter argIsSelector).mapM labelsParse = .ok sels) ∧
    ((∃ a ∈ args, argIsSelector a ∧ ∃ m, labelsParse a = .error m) →
        ∃ msg, parsePosArgs labelsParse args = .error msg) := by
  refine ⟨?_, ?_, ?_⟩
  · intro h
    subst h
    exact ⟨_, rfl⟩
  · intro sels names hok
    unfold parsePosArgs at hok
    match args with
    | [] => exact absurd hok (by simp)
    | arg :: rest =>
        rw [if_neg (by simp)] at hok
        obtain ⟨hn, parsed, hm, hs⟩ := parsePosArgsLoop_ok labelsParse _ _ _ _ _ hok
        rw [List.nil_append] at hn
        rw [List.nil_append] at hs
        exact ⟨hn, hs ▸ hm⟩
  · intro hbad
    match args with
    | [] =>
        obtain ⟨a, ha, -⟩ := hbad
        exact absurd ha (List.not_mem_nil a)
    | arg :: rest =>
        unfold parsePosArgs
        rw [if_neg (by simp)]
        exact parsePosArgsLoop_error labelsParse _ _ _ hbad

/-- C10 witness: the mixed test case — two plain names and two
selector expressions (parsed with a stub selector parser that accepts
everything) — classifies as the tests expect. -/
theorem parsePosArgs_classification_witness :
    (["node1", "node2"] : List String) =
        (["node1", "foo=bar", "node2", "baz!=qux"] : List String).filter
          (fun a => !argIsSelector a) ∧
      ((["node1", "foo=bar", "node2", "baz!=qux"] : List String).filter
          argIsSelector).mapM (fun s => (Except.ok s : Except String String)) =
        .ok ["foo=bar", "baz!=qux"] := by
  have h := (parsePosArgs_classification
    (fun s => (Except.ok s : Except String String))
    ["node1", "foo=bar", "node2", "baz!=qux"]).2.1
    ["foo=bar", "baz!=qux"] ["node1", "node2"] rfl
  exact ⟨h.1.symm ▸ rfl, h.2⟩

end PodsOn
